import Mathlib

/-!
Verification development for the CarbonLens dashboard (`app.py`).

The numeric cells of the dataframe are modelled as `Option ℚ`: `none` is a
missing value (NaN after `pd.to_numeric(..., errors="coerce")`), `some q` a
present numeric value.  CSV parsing itself is outside the embedding; rows
enter the model already coerced.

The cleaning step of `load_data` applies, per country group and per measure
column, the pandas pipeline `s.interpolate().ffill().bfill()`.
`Series.interpolate` with the default `method="linear"` ignores the index and
interpolates by row position ("treat the values as equally spaced"); values
after the last valid observation are filled with that last valid value, values
before the first valid observation are left missing.  `ffill` carries the last
valid value forward, `bfill` carries the next valid value backward.  All three
are modelled below position-by-position over a `List (Option ℚ)`.
-/

/-- Last valid value strictly before position `i` (scanning `i-1, i-2, …, 0`),
together with its position.  Mirrors where pandas finds the left neighbour of
a gap. -/
def lastKnownBefore (s : List (Option ℚ)) : ℕ → Option (ℕ × ℚ)
  | 0 => none
  | i + 1 =>
    match s.getD i none with
    | some v => some (i, v)
    | none => lastKnownBefore s i

/-- First valid value at position `≥ i` (scanning upward, fuelled), together
with its position.  Mirrors where pandas finds the right neighbour of a gap. -/
def firstKnownFrom (s : List (Option ℚ)) : ℕ → ℕ → Option (ℕ × ℚ)
  | _, 0 => none
  | i, fuel + 1 =>
    if i < s.length then
      match s.getD i none with
      | some v => some (i, v)
      | none => firstKnownFrom s (i + 1) fuel
    else none

/-- Rebuild a series position by position: `mapPos f i l` replaces the
element at offset `k` of `l` by `f (i + k)`.  This is how pandas reassigns a
whole column aligned by position. -/
def mapPos (f : ℕ → Option ℚ) : ℕ → List (Option ℚ) → List (Option ℚ)
  | _, [] => []
  | i, _ :: rest => f i :: mapPos f (i + 1) rest

/-- Value of `s.interpolate()` (pandas, `method="linear"`) at position `i`:
a known value stays; a gap with neighbours on both sides is filled linearly by
row position; a trailing gap is filled with the last valid value; a leading
gap stays missing. -/
def interpValue (s : List (Option ℚ)) (i : ℕ) : Option ℚ :=
  match s.getD i none with
  | some v => some v
  | none =>
    match lastKnownBefore s i with
    | none => none
    | some (p, vp) =>
      match firstKnownFrom s (i + 1) s.length with
      | some (n, vn) => some (vp + (((i : ℚ) - (p : ℚ)) / ((n : ℚ) - (p : ℚ))) * (vn - vp))
      | none => some vp

/-- `s.interpolate()` as a whole series. -/
def interpolate (s : List (Option ℚ)) : List (Option ℚ) :=
  mapPos (interpValue s) 0 s

/-- Value of `s.ffill()` at position `i`: a gap takes the last valid value
before it, if any. -/
def ffillValue (s : List (Option ℚ)) (i : ℕ) : Option ℚ :=
  match s.getD i none with
  | some v => some v
  | none => (lastKnownBefore s i).map Prod.snd

/-- `s.ffill()` as a whole series. -/
def ffill (s : List (Option ℚ)) : List (Option ℚ) :=
  mapPos (ffillValue s) 0 s

/-- Value of `s.bfill()` at position `i`: a gap takes the next valid value at
or after it, if any. -/
def bfillValue (s : List (Option ℚ)) (i : ℕ) : Option ℚ :=
  match s.getD i none with
  | some v => some v
  | none => (firstKnownFrom s i s.length).map Prod.snd

/-- `s.bfill()` as a whole series. -/
def bfill (s : List (Option ℚ)) : List (Option ℚ) :=
  mapPos (bfillValue s) 0 s

/-- The per-column cleaning pipeline of `load_data`
(`lambda s: s.interpolate().ffill().bfill()`, app.py line 19). -/
def cleanSeries (s : List (Option ℚ)) : List (Option ℚ) :=
  bfill (ffill (interpolate s))

/-- A country series with its years: the cleaning acts on the values only,
years are carried along unchanged (pandas interpolation ignores the index). -/
def cleanRows (rows : List (ℤ × Option ℚ)) : List (ℤ × Option ℚ) :=
  List.zipWith (fun r v => (r.1, v)) rows (cleanSeries (rows.map Prod.snd))

/-- First non-missing value of a series (the earliest known value). -/
def firstSome : List (Option ℚ) → Option ℚ
  | [] => none
  | some v :: _ => some v
  | none :: rest => firstSome rest

/-- Last non-missing value of a series (the latest known value). -/
def lastSome : List (Option ℚ) → Option ℚ
  | [] => none
  | x :: rest =>
    match lastSome rest with
    | some v => some v
    | none => x

example : cleanSeries [some 10, none, some 30] = [some 10, some 20, some 30] := by
  norm_num [cleanSeries, bfill, ffill, interpolate, mapPos, interpValue, ffillValue,
    bfillValue, lastKnownBefore, firstKnownFrom]
example : cleanSeries [none, some 7, none, some 9] = [some 7, some 7, some 8, some 9] := by
  norm_num [cleanSeries, bfill, ffill, interpolate, mapPos, interpValue, ffillValue,
    bfillValue, lastKnownBefore, firstKnownFrom]
example : cleanSeries [none, none] = [none, none] := by
  norm_num [cleanSeries, bfill, ffill, interpolate, mapPos, interpValue, ffillValue,
    bfillValue, lastKnownBefore, firstKnownFrom]
example : cleanRows [(2000, some 10), (2001, none), (2004, some 30)]
    = [(2000, some 10), (2001, some 20), (2004, some 30)] := by
  norm_num [cleanRows, cleanSeries, bfill, ffill, interpolate, mapPos, interpValue,
    ffillValue, bfillValue, lastKnownBefore, firstKnownFrom]

/-!
Table model of `load_data` (app.py lines 6-21).

A `Row` is one observation of the raw CSV after numeric coercion: the
identifying fields `iso_code`, `country`, `year` and the nine numeric measure
columns, the latter indexed by `Col`.
-/

/-- The nine numeric measure columns coerced by `load_data`
(app.py lines 10-13). -/
inductive Col where
  | co2 | co2_per_capita | gdp | population
  | coal_co2 | oil_co2 | gas_co2 | flaring_co2 | cement_co2
deriving DecidableEq, Fintype, Repr

/-- One row of the dataset: identifiers plus the nine measure columns
(`none` = missing). -/
structure Row where
  iso_code : String
  country : String
  year : ℤ
  val : Col → Option ℚ
deriving DecidableEq

/-- Row filter of app.py line 9: `df[df.iso_code.str.len() == 3]`. -/
def keep (r : Row) : Bool := r.iso_code.length == 3

/-- Sort key order of app.py line 14: `df.sort_values([country, year])`,
lexicographic on country then year. -/
def keyLE (a b : Row) : Prop :=
  a.country < b.country ∨ (a.country = b.country ∧ a.year ≤ b.year)

instance (a b : Row) : Decidable (keyLE a b) := by
  unfold keyLE; infer_instance

instance : IsTotal Row keyLE := by
  constructor
  intro a b
  rcases lt_trichotomy a.country b.country with h | h | h
  · exact Or.inl (Or.inl h)
  · rcases le_total a.year b.year with hy | hy
    · exact Or.inl (Or.inr ⟨h, hy⟩)
    · exact Or.inr (Or.inr ⟨h.symm, hy⟩)
  · exact Or.inr (Or.inl h)

instance : IsTrans Row keyLE := by
  constructor
  intro a b c hab hbc
  rcases hab with h1 | ⟨h1, hy1⟩
  · rcases hbc with h2 | ⟨h2, _⟩
    · exact Or.inl (h1.trans h2)
    · exact Or.inl (h2 ▸ h1)
  · rcases hbc with h2 | ⟨h2, hy2⟩
    · exact Or.inl (h1 ▸ h2)
    · exact Or.inr ⟨h1.trans h2, hy1.trans hy2⟩

/-- `df.sort_values([country, year])` (app.py line 14). -/
def sortRows (l : List Row) : List Row := List.insertionSort keyLE l

/-- Walk the remaining rows, extending the current run (kept in reverse in
`cur`) while the country matches `c`, starting a new run otherwise. -/
def groupsGo (c : String) (cur : List Row) : List Row → List (List Row)
  | [] => [cur.reverse]
  | x :: xs =>
    if x.country == c then groupsGo c (x :: cur) xs
    else cur.reverse :: groupsGo x.country [x] xs

/-- Contiguous runs of equal `country` in a (sorted) list of rows: the groups
of `df.groupby(country)` (app.py line 17) seen through the transform, which
leaves each row at its position. -/
def groups : List Row → List (List Row)
  | [] => []
  | r :: rs => groupsGo r.country [r] rs

/-- One measure column of a group of rows. -/
def colSeries (g : List Row) (c : Col) : List (Option ℚ) :=
  g.map (fun r => r.val c)

/-- The groupby-transform of app.py lines 15-20 on one country group: every
of the nine measure columns is replaced by its cleaned series, each row
keeping its identifying fields and position. -/
def cleanGroup (g : List Row) : List Row :=
  List.zipWith
    (fun r i => { r with val := fun c => (cleanSeries (colSeries g c)).getD i none })
    g (List.range g.length)

/-- The whole of `load_data` (app.py lines 7-21), starting from the rows of
the CSV after numeric coercion: filter to 3-letter iso codes, sort by
(country, year), then clean every measure column per country group. -/
def load_data (rows : List Row) : List Row :=
  ((groups (sortRows (rows.filter keep))).map cleanGroup).flatten

/-- Identifying fields of a row, unaffected by cleaning. -/
def rowKey (r : Row) : String × String × ℤ := (r.iso_code, r.country, r.year)

/-- Sort key comparison on the identifying fields. -/
def rowKeyLE (a b : String × String × ℤ) : Prop :=
  a.2.1 < b.2.1 ∨ (a.2.1 = b.2.1 ∧ a.2.2 ≤ b.2.2)

/-!
Chart panel computations (app.py lines 36-137).  Only the data each chart is
built from is modelled; the plotly rendering itself is outside the embedding.
-/

/-- Pandas `max()` of a column, as used on nonempty columns by the panels
(on an empty column pandas yields NaN; the panels below only consult it
together with membership in a nonempty column). -/
def maxQ : List ℚ → ℚ
  | [] => 0
  | [x] => x
  | x :: y :: rest => max x (maxQ (y :: rest))

/-- The co2 cell of a row with missing read as 0, the way pandas `sum` and
comparisons treat NaN cells after aggregation. -/
def co2val (r : Row) : ℚ := (r.val Col.co2).getD 0

/-- One year-slice of `annual = df.groupby([year, country], as_index=False).co2.sum()`
(app.py line 40): for each country appearing in year `y`, the sum of its co2
cells of that year (pandas `sum` skips NaN, an all-NaN group sums to 0).
Group keys are listed in first-appearance order; the properties proved below
do not depend on the key order. -/
def annual (rows : List Row) (y : ℤ) : List (String × ℚ) :=
  (((rows.filter (fun r => r.year == y)).map (fun r => r.country)).dedup).map
    (fun c => (c, (((rows.filter (fun r => r.year == y && r.country == c)).map co2val)).sum))

/-- Descending-co2 comparison used by `nlargest(10, co2)`. -/
def geCo2 (a b : String × ℚ) : Prop := b.2 ≤ a.2

instance (a b : String × ℚ) : Decidable (geCo2 a b) := by
  unfold geCo2; infer_instance

instance : IsTotal (String × ℚ) geCo2 :=
  ⟨fun a b => (le_total b.2 a.2).imp (fun h => h) (fun h => h)⟩

instance : IsTrans (String × ℚ) geCo2 :=
  ⟨fun _ _ _ hab hbc => le_trans hbc hab⟩

/-- The year-`y` block of `top10_each` (app.py lines 41-42):
`annual.groupby(year).apply(lambda d: d.nlargest(10, co2))`, i.e. the ten
largest totals of that year. -/
def top10_each (rows : List Row) (y : ℤ) : List (String × ℚ) :=
  (List.insertionSort geCo2 (annual rows y)).take 10

/-- `df_map = df.dropna(subset=[co2_per_capita, co2])` (app.py line 55). -/
def dfMap (rows : List Row) : List Row :=
  rows.filter (fun r => (r.val Col.co2_per_capita).isSome && (r.val Col.co2).isSome)

/-- The maximum of the co2 column of `df_map` (`df_map.co2.max()`). -/
def dfMapCo2Max (rows : List Row) : ℚ :=
  maxQ ((dfMap rows).map co2val)

/-- `df_map[bubble_size] = (df_map.co2 / df_map.co2.max()) * 60 + 5`
(app.py line 56), per row. -/
def bubble_size (rows : List Row) (r : Row) : ℚ :=
  (co2val r / dfMapCo2Max rows) * 60 + 5

/-- `latest = int(df.year.max())` (app.py line 24). -/
def latestYear (rows : List Row) : ℤ :=
  ((rows.map (fun r => r.year)).max?).getD 0

/-- `df_radar = df[df.year == latest].dropna(subset=[co2, co2_per_capita, gdp,
population]).copy()` (app.py lines 71-73). -/
def dfRadar (rows : List Row) : List Row :=
  rows.filter (fun r =>
    r.year == latestYear rows && (r.val Col.co2).isSome &&
    (r.val Col.co2_per_capita).isSome && (r.val Col.gdp).isSome &&
    (r.val Col.population).isSome)

/-- `df_radar[gdp_per_capita] = df_radar.gdp / df_radar.population`
(app.py line 74); the division is the unguarded field division of the host
language. -/
def gdp_per_capita (r : Row) : ℚ :=
  (r.val Col.gdp).getD 0 / (r.val Col.population).getD 0

/-- The same division guarded: the error branch is taken when the divisor
`population` is zero (floating point would produce inf/NaN there). -/
def gdpPerCapitaChecked (r : Row) : Option ℚ :=
  if (r.val Col.population).getD 0 = 0 then none
  else some ((r.val Col.gdp).getD 0 / (r.val Col.population).getD 0)

/-- The four radar metrics (app.py line 83). -/
inductive Metric where
  | population | gdp_per_capita | co2 | co2_per_capita
deriving DecidableEq, Fintype, Repr

/-- Value of one radar metric on one `df_radar` row. -/
def metricVal (m : Metric) (r : Row) : ℚ :=
  match m with
  | .population => (r.val Col.population).getD 0
  | .gdp_per_capita => gdp_per_capita r
  | .co2 => co2val r
  | .co2_per_capita => (r.val Col.co2_per_capita).getD 0

/-- `norm = df_radar[metrics].max()` (app.py line 85): the per-metric maximum
over ALL rows of the latest-year table, not only the selected countries. -/
def metricMax (rows : List Row) (m : Metric) : ℚ :=
  maxQ ((dfRadar rows).map (metricVal m))

/-- Rows of `df_radar.set_index(country).loc[choices, metrics]`: one row per
chosen country name (pandas `.loc` keys the index by name). -/
def selectedRows (rows : List Row) (choices : List String) : List Row :=
  choices.filterMap (fun c => (dfRadar rows).find? (fun r => r.country == c))

/-- `df_norm = df_radar.set_index(country).loc[choices, metrics] / norm`
(app.py line 86): each selected country with its four metrics divided by the
per-metric maxima over the whole latest-year table. -/
def df_norm (rows : List Row) (choices : List String) : List (String × (Metric → ℚ)) :=
  (selectedRows rows choices).map
    (fun r => (r.country, fun m => metricVal m r / metricMax rows m))

/-- `radar_df = df_norm.reset_index().melt(...)` (app.py lines 89-91): the
normalized table melted to (country, metric, value) triples. -/
def radar_df (rows : List Row) (choices : List String) : List (String × Metric × ℚ) :=
  (df_norm rows choices).flatMap
    (fun p => [Metric.population, .gdp_per_capita, .co2, .co2_per_capita].map
      (fun m => (p.1, m, p.2 m)))

/-- What the radar panel renders: either a chart built from data, or an
informational message. -/
inductive RadarOutput where
  | chart (data : List (String × Metric × ℚ))
  | message (text : String)
deriving DecidableEq

/-- The `if choices: ... else: st.info(...)` branch of the radar panel
(app.py lines 82-112): a chart for a nonempty selection, an informational
message for an empty one. -/
def radarPanel (rows : List Row) (choices : List String) : RadarOutput :=
  if choices = [] then
    .message "Select at least one country to display the radar chart."
  else
    .chart (radar_df rows choices)

/-!
Heap model for the render pass (§5 of the spec, app.py lines 23-137).

Streamlit re-runs the script per interaction; `load_data` is cached, so the
cleaned dataframe is one shared object.  To make mutation expressible the
dataframes live in a heap of tables addressed by references; `dropna`,
boolean-mask selection and `.copy()` allocate fresh tables (as the pandas
calls in app.py do), while column assignment `t[col] = ...` updates the
referenced table in place.  A table row is a cleaned `Row` plus the extra
columns assigned by the panels.
-/

/-- A row of a dataframe living in the heap: the underlying observation plus
any extra columns assigned later (name, value). -/
structure RowX where
  base : Row
  extra : List (String × ℚ)
deriving DecidableEq

/-- A dataframe in the heap. -/
def Table := List RowX
deriving instance DecidableEq for Table

/-- The heap of allocated dataframes; references are list positions. -/
structure Heap where
  tables : List Table
deriving DecidableEq

/-- Dereference a table. -/
def Heap.get (h : Heap) (ref : ℕ) : Table := h.tables.getD ref []

/-- Allocate a fresh table, returning its reference. -/
def Heap.alloc (h : Heap) (t : Table) : Heap × ℕ :=
  (⟨h.tables ++ [t]⟩, h.tables.length)

/-- Overwrite the table a reference points to (in-place mutation). -/
def Heap.put (h : Heap) (ref : ℕ) (t : Table) : Heap := ⟨h.tables.set ref t⟩

/-- Column assignment `t[name] = f(row)`: every row of the table gains the
column. -/
def addColumn (name : String) (f : RowX → ℚ) (t : Table) : Table :=
  t.map (fun r => { r with extra := r.extra ++ [(name, f r)] })

/-- Latest year over a heap table. -/
def latestYearX (t : Table) : ℤ :=
  ((t.map (fun r => r.base.year)).max?).getD 0

/-- The bubble-map panel (app.py lines 53-65): `df_map = df.dropna(subset=
[co2_per_capita, co2])` allocates a fresh frame, then `df_map[bubble_size] =
(df_map.co2 / df_map.co2.max()) * 60 + 5` mutates that fresh frame only. -/
def bubblePanelRun (h : Heap) (df : ℕ) : Heap :=
  let t := h.get df
  let tmap := t.filter (fun r =>
    (r.base.val Col.co2_per_capita).isSome && (r.base.val Col.co2).isSome)
  let alloced := h.alloc tmap
  alloced.1.put alloced.2
    (addColumn "bubble_size"
      (fun r => ((r.base.val Col.co2).getD 0
        / maxQ (tmap.map (fun x => (x.base.val Col.co2).getD 0))) * 60 + 5)
      (alloced.1.get alloced.2))

/-- The radar panel heap effect (app.py lines 71-74): `df_radar = df[df.year
== latest].dropna(subset=[co2, co2_per_capita, gdp, population]).copy()`
allocates a fresh frame, then `df_radar[gdp_per_capita] = df_radar.gdp /
df_radar.population` mutates that fresh frame only. -/
def radarPanelRun (h : Heap) (df : ℕ) : Heap :=
  let t := h.get df
  let tr := t.filter (fun r =>
    r.base.year == latestYearX t && (r.base.val Col.co2).isSome &&
    (r.base.val Col.co2_per_capita).isSome && (r.base.val Col.gdp).isSome &&
    (r.base.val Col.population).isSome)
  let alloced := h.alloc tr
  alloced.1.put alloced.2
    (addColumn "gdp_per_capita"
      (fun r => (r.base.val Col.gdp).getD 0 / (r.base.val Col.population).getD 0)
      (alloced.1.get alloced.2))

/-- The bar-chart race panel (app.py lines 37-50) only reads `df`; its
aggregates (`annual`, `top10_each`) are fresh objects it never writes back,
so its heap effect is nil. -/
def barPanelRun (h : Heap) (df : ℕ) : Heap :=
  let t := h.get df
  let annualTotals := fun (y : ℤ) => top10_each (t.map (fun r => r.base)) y
  let _ := annualTotals
  h

/-- The sunburst panel (app.py lines 115-137) only reads `df`; `df5`, `top5`
and `melt` are fresh objects it never writes back, so its heap effect is
nil. -/
def sunburstPanelRun (h : Heap) (df : ℕ) : Heap :=
  let t := h.get df
  let df5 := t.filter (fun r => r.base.year == latestYearX t)
  let _ := df5
  h

/-- One render pass over the selected subset of the four panels, in script
order (app.py lines 37, 53, 68, 115). -/
def renderPass (h : Heap) (df : ℕ) (bar bubble radar sunburst : Bool) : Heap :=
  let h1 := if bar then barPanelRun h df else h
  let h2 := if bubble then bubblePanelRun h1 df else h1
  let h3 := if radar then radarPanelRun h2 df else h2
  if sunburst then sunburstPanelRun h3 df else h3

/-- The cached cleaned table as first allocated in the heap: the rows of
`load_data` with no extra columns. -/
def initialHeap (raw : List Row) : Heap :=
  ⟨[(load_data raw).map (fun r => ⟨r, []⟩)]⟩

/-! Basic facts about the series pipeline. -/

theorem length_mapPos (f : ℕ → Option ℚ) :
    ∀ (i : ℕ) (l : List (Option ℚ)), (mapPos f i l).length = l.length
  | _, [] => rfl
  | i, _ :: rest => by simp [mapPos, length_mapPos f (i + 1) rest]

theorem getD_mapPos (f : ℕ → Option ℚ) :
    ∀ (i k : ℕ) (l : List (Option ℚ)), k < l.length →
      (mapPos f i l).getD k none = f (i + k)
  | _, _, [], h => absurd h (by simp)
  | i, 0, _ :: _, _ => by simp [mapPos]
  | i, k + 1, _ :: rest, h => by
    have hr : k < rest.length := by simpa using Nat.lt_of_succ_lt_succ h
    simp only [mapPos, List.getD_cons_succ]
    rw [getD_mapPos f (i + 1) k rest hr]
    ring_nf

theorem length_interpolate (s : List (Option ℚ)) : (interpolate s).length = s.length :=
  length_mapPos _ _ _

theorem length_ffill (s : List (Option ℚ)) : (ffill s).length = s.length :=
  length_mapPos _ _ _

theorem length_bfill (s : List (Option ℚ)) : (bfill s).length = s.length :=
  length_mapPos _ _ _

theorem length_cleanSeries (s : List (Option ℚ)) : (cleanSeries s).length = s.length := by
  simp [cleanSeries, length_bfill, length_ffill, length_interpolate]

theorem getD_interpolate (s : List (Option ℚ)) (k : ℕ) (h : k < s.length) :
    (interpolate s).getD k none = interpValue s k := by
  simpa using getD_mapPos (interpValue s) 0 k s h

theorem getD_ffill (s : List (Option ℚ)) (k : ℕ) (h : k < s.length) :
    (ffill s).getD k none = ffillValue s k := by
  simpa using getD_mapPos (ffillValue s) 0 k s h

theorem getD_bfill (s : List (Option ℚ)) (k : ℕ) (h : k < s.length) :
    (bfill s).getD k none = bfillValue s k := by
  simpa using getD_mapPos (bfillValue s) 0 k s h

theorem interpValue_known {s : List (Option ℚ)} {i : ℕ} {v : ℚ}
    (h : s.getD i none = some v) : interpValue s i = some v := by
  unfold interpValue
  rw [h]

theorem ffillValue_known {s : List (Option ℚ)} {i : ℕ} {v : ℚ}
    (h : s.getD i none = some v) : ffillValue s i = some v := by
  unfold ffillValue
  rw [h]

theorem bfillValue_known {s : List (Option ℚ)} {i : ℕ} {v : ℚ}
    (h : s.getD i none = some v) : bfillValue s i = some v := by
  unfold bfillValue
  rw [h]

theorem lastKnownBefore_isSome {s : List (Option ℚ)} {j : ℕ} {v : ℚ} :
    ∀ {i : ℕ}, j < i → s.getD j none = some v → (lastKnownBefore s i).isSome
  | 0, hj, _ => absurd hj (Nat.not_lt_zero j)
  | i + 1, hj, hv => by
    rw [lastKnownBefore]
    cases hsi : s.getD i none with
    | some w => simp
    | none =>
      have hji : j < i := by
        rcases Nat.lt_succ_iff_lt_or_eq.mp hj with h | h
        · exact h
        · rw [h] at hv; rw [hv] at hsi; exact absurd hsi (by simp)
      simpa using lastKnownBefore_isSome hji hv

theorem firstKnownFrom_isSome {s : List (Option ℚ)} {v : ℚ} :
    ∀ (fuel : ℕ) {i j : ℕ}, i ≤ j → j < i + fuel → j < s.length →
      s.getD j none = some v → (firstKnownFrom s i fuel).isSome
  | 0, i, j, hij, hfuel, _, _ => absurd hfuel (by omega)
  | fuel + 1, i, j, hij, hfuel, hjlen, hv => by
    rw [firstKnownFrom]
    have hilen : i < s.length := Nat.lt_of_le_of_lt hij hjlen
    rw [if_pos hilen]
    cases hsi : s.getD i none with
    | some w => simp
    | none =>
      have hji : i < j := by
        rcases Nat.lt_or_ge i j with h | h
        · exact h
        · have : i = j := Nat.le_antisymm hij h
          rw [this] at hsi; rw [hsi] at hv; exact absurd hv (by simp)
      exact firstKnownFrom_isSome fuel hji (by omega) hjlen hv

/-- Core filling lemma: a series with at least one known value has no missing
value left after `interpolate().ffill().bfill()`. -/
theorem cleanSeries_no_missing (s : List (Option ℚ)) (h : ∃ v, some v ∈ s) :
    ∀ x ∈ cleanSeries s, x.isSome := by
  obtain ⟨v, hv⟩ := h
  obtain ⟨j, hj⟩ := List.mem_iff_getElem?.mp hv
  have hjlen : j < s.length := (List.getElem?_eq_some.mp hj).1
  have hsj : s.getD j none = some v := by rw [List.getD_eq_getElem?_getD, hj]; rfl
  have htlen : (interpolate s).length = s.length := length_interpolate s
  have hulen : (ffill (interpolate s)).length = s.length := by rw [length_ffill, htlen]
  have htj : (interpolate s).getD j none = some v := by
    rw [getD_interpolate s j hjlen]; exact interpValue_known hsj
  have huj : (ffill (interpolate s)).getD j none = some v := by
    rw [getD_ffill _ j (by rw [htlen]; exact hjlen)]
    exact ffillValue_known htj
  have hu : ∀ i, j ≤ i → i < s.length → ((ffill (interpolate s)).getD i none).isSome := by
    intro i hji hilen
    rw [getD_ffill _ i (by rw [htlen]; exact hilen)]
    cases hti : (interpolate s).getD i none with
    | some w => rw [ffillValue_known hti]; rfl
    | none =>
      have hlt : j < i := by
        rcases Nat.lt_or_ge j i with hlt | hge
        · exact hlt
        · have hji2 : j = i := Nat.le_antisymm hji hge
          rw [hji2, hti] at htj
          exact absurd htj (by simp)
      unfold ffillValue
      rw [hti]
      obtain ⟨pv, hpv⟩ := Option.isSome_iff_exists.mp (lastKnownBefore_isSome hlt htj)
      rw [hpv]
      rfl
  intro x hx
  obtain ⟨k, hk⟩ := List.mem_iff_getElem?.mp hx
  have hklen : k < (cleanSeries s).length := (List.getElem?_eq_some.mp hk).1
  have hklen' : k < s.length := by rwa [length_cleanSeries] at hklen
  have hxval : (cleanSeries s).getD k none = x := by
    rw [List.getD_eq_getElem?_getD, hk]; rfl
  rw [cleanSeries, getD_bfill _ k (by rw [hulen]; exact hklen')] at hxval
  rcases Nat.lt_or_ge k j with hkj | hjk
  · cases huk : (ffill (interpolate s)).getD k none with
    | some w => rw [bfillValue_known huk] at hxval; rw [← hxval]; rfl
    | none =>
      unfold bfillValue at hxval
      rw [huk] at hxval
      have hfk : (firstKnownFrom (ffill (interpolate s)) k
          (ffill (interpolate s)).length).isSome :=
        firstKnownFrom_isSome _ (Nat.le_of_lt hkj)
          (by rw [hulen]; omega) (by rw [hulen]; exact hjlen) huj
      obtain ⟨pv, hpv⟩ := Option.isSome_iff_exists.mp hfk
      rw [hpv] at hxval
      rw [← hxval]
      rfl
  · obtain ⟨w, hw⟩ := Option.isSome_iff_exists.mp (hu k hjk hklen')
    rw [bfillValue_known hw] at hxval
    rw [← hxval]
    rfl

/-- C2: for every column of every country group of the cleaning step, if the
group has at least one non-missing value in that column, then after the
cleaning transform the group has zero missing values in that column. -/
theorem c2_no_missing_per_group (rows : List Row) (c : Col) (g : List Row)
    (_hg : g ∈ groups (sortRows (rows.filter keep)))
    (h : ∃ r ∈ g, (r.val c).isSome) :
    ∀ r' ∈ cleanGroup g, (r'.val c).isSome := by
  intro r' hr'
  obtain ⟨i, hi⟩ := List.mem_iff_getElem?.mp hr'
  obtain ⟨hlen, hval⟩ := List.getElem?_eq_some.mp hi
  have hglen : i < g.length := by
    simpa [cleanGroup, List.length_zipWith] using hlen
  have hrv : r'.val c = (cleanSeries (colSeries g c)).getD i none := by
    rw [← hval]
    simp [cleanGroup, List.getElem_zipWith]
  have hslen : i < (cleanSeries (colSeries g c)).length := by
    rw [length_cleanSeries]
    simpa [colSeries] using hglen
  have hmem : (cleanSeries (colSeries g c)).getD i none ∈ cleanSeries (colSeries g c) := by
    rw [List.getD_eq_getElem?_getD, List.getElem?_eq_getElem hslen]
    exact List.getElem_mem hslen
  obtain ⟨r, hr, hrs⟩ := h
  obtain ⟨v, hv⟩ := Option.isSome_iff_exists.mp hrs
  have hsv : ∃ v, some v ∈ colSeries g c := ⟨v, by
    simp only [colSeries, List.mem_map]
    exact ⟨r, hr, hv⟩⟩
  rw [hrv]
  exact cleanSeries_no_missing (colSeries g c) hsv _ hmem

/-- One-row table used as concrete input below. -/
def rowA : Row :=
  { iso_code := "AAA", country := "A", year := 2000,
    val := fun c => match c with | Col.co2 => some 2 | _ => none }

/-- Witness for C2 at a concrete input. -/
theorem c2_no_missing_per_group_witness :
    (cleanGroup [rowA]).all (fun r' => (r'.val Col.co2).isSome) = true :=
  List.all_eq_true.mpr (fun r' hr' =>
    c2_no_missing_per_group [rowA] Col.co2 [rowA] (by decide) (by decide) r' hr')

/-- C1 counterexample: a series with known rows at years 2000 and 2004 and a
single missing row at year 2001 is filled with the position-based midpoint 20,
not with the year-axis interpolation value 10 + (2001-2000)/(2004-2000)*(30-10)
= 15 the claim asserts. -/
theorem c1_counterexample :
    (cleanRows [(2000, some 10), (2001, none), (2004, some 30)]).getD 1 (0, none)
        = (2001, some 20) ∧
    ¬ ((20 : ℚ) = 10 + (((2001 : ℚ) - 2000) / ((2004 : ℚ) - 2000)) * (30 - 10)) := by
  constructor
  · norm_num [cleanRows, cleanSeries, bfill, ffill, interpolate, mapPos, interpValue,
      ffillValue, bfillValue, lastKnownBefore, firstKnownFrom]
  · norm_num

/-- C1 amended: for a country series with known values v1 and v2 in adjacent
known rows and exactly one interior missing row between them, the cleaner
fills the gap with the midpoint (v1+v2)/2 — linear interpolation by row
position, which agrees with interpolation over the year axis exactly when the
missing year is halfway between its neighbours (as in the spec example). -/
theorem c1_amended (y1 y y2 : ℤ) (v1 v2 : ℚ) (_h1 : y1 < y) (_h2 : y < y2) :
    cleanRows [(y1, some v1), (y, none), (y2, some v2)]
      = [(y1, some v1), (y, some ((v1 + v2) / 2)), (y2, some v2)] := by
  norm_num [cleanRows, cleanSeries, bfill, ffill, interpolate, mapPos, interpValue,
    ffillValue, bfillValue, lastKnownBefore, firstKnownFrom]
  ring

/-- Witness for C1 amended: the spec example rows (2000,10), (2002,missing),
(2004,30) clean to 20 at year 2002. -/
theorem c1_amended_witness :
    cleanRows [(2000, some 10), (2002, none), (2004, some 30)]
      = [(2000, some 10), (2002, some ((10 + 30) / 2)), (2004, some 30)] :=
  c1_amended 2000 2002 2004 10 30 (by norm_num) (by norm_num)

/-! Exact characterizations of the neighbour scans, used for the boundary
fill claim. -/

theorem lastKnownBefore_eq_none {s : List (Option ℚ)} :
    ∀ {i : ℕ}, (∀ k, k < i → s.getD k none = none) → lastKnownBefore s i = none
  | 0, _ => rfl
  | i + 1, h => by
    rw [lastKnownBefore, h i (Nat.lt_succ_self i)]
    exact lastKnownBefore_eq_none (fun k hk => h k (Nat.lt_succ_of_lt hk))

theorem lastKnownBefore_exact {s : List (Option ℚ)} {p : ℕ} {v : ℚ}
    (hp : s.getD p none = some v) :
    ∀ {i : ℕ}, p < i → (∀ k, p < k → k < i → s.getD k none = none) →
      lastKnownBefore s i = some (p, v)
  | 0, h, _ => absurd h (Nat.not_lt_zero p)
  | i + 1, h, hnone => by
    rw [lastKnownBefore]
    rcases Nat.lt_succ_iff_lt_or_eq.mp h with hlt | heq
    · rw [hnone i hlt (Nat.lt_succ_self i)]
      exact lastKnownBefore_exact hp hlt
        (fun k hk1 hk2 => hnone k hk1 (Nat.lt_succ_of_lt hk2))
    · rw [← heq, hp]

theorem lastKnownBefore_spec {s : List (Option ℚ)} :
    ∀ {i p : ℕ} {v : ℚ}, lastKnownBefore s i = some (p, v) →
      p < i ∧ s.getD p none = some v ∧ ∀ k, p < k → k < i → s.getD k none = none
  | 0, _, _, h => by rw [lastKnownBefore] at h; exact absurd h (by simp)
  | i + 1, p, v, h => by
    rw [lastKnownBefore] at h
    cases hsi : s.getD i none with
    | some w =>
      rw [hsi] at h
      simp only [Option.some.injEq, Prod.mk.injEq] at h
      obtain ⟨hip, hwv⟩ := h
      refine ⟨hip ▸ Nat.lt_succ_self i, ?_, fun k hk1 hk2 => by omega⟩
      rw [← hip, hsi, hwv]
    | none =>
      rw [hsi] at h
      obtain ⟨h1, h2, h3⟩ := lastKnownBefore_spec h
      refine ⟨Nat.lt_succ_of_lt h1, h2, fun k hk1 hk2 => ?_⟩
      rcases Nat.lt_succ_iff_lt_or_eq.mp hk2 with hlt | heq
      · exact h3 k hk1 hlt
      · rw [heq]; exact hsi

theorem firstKnownFrom_none_of_ge {s : List (Option ℚ)} :
    ∀ (fuel : ℕ) {i : ℕ}, s.length ≤ i → firstKnownFrom s i fuel = none
  | 0, _, _ => rfl
  | fuel + 1, i, h => by
    rw [firstKnownFrom, if_neg (by omega)]

theorem firstKnownFrom_exact {s : List (Option ℚ)} {n : ℕ} {v : ℚ}
    (hn : s.getD n none = some v) (hlen : n < s.length) :
    ∀ (fuel : ℕ) {i : ℕ}, i ≤ n → n < i + fuel →
      (∀ k, i ≤ k → k < n → s.getD k none = none) →
      firstKnownFrom s i fuel = some (n, v)
  | 0, _, _, hfuel, _ => absurd hfuel (by omega)
  | fuel + 1, i, hin, hfuel, hnone => by
    rw [firstKnownFrom, if_pos (Nat.lt_of_le_of_lt hin hlen)]
    rcases Nat.lt_or_eq_of_le hin with hlt | heq
    · rw [hnone i (Nat.le_refl i) hlt]
      exact firstKnownFrom_exact hn hlen fuel (by omega) (by omega)
        (fun k hk1 hk2 => hnone k (by omega) hk2)
    · rw [heq, hn]

theorem firstSome_exact :
    ∀ {s : List (Option ℚ)} {j : ℕ} {v : ℚ}, s.getD j none = some v →
      (∀ k, k < j → s.getD k none = none) → firstSome s = some v
  | [], _, _, h, _ => by simp at h
  | x :: rest, 0, v, h, _ => by
    rw [List.getD_cons_zero] at h
    rw [h]
    rfl
  | x :: rest, j + 1, v, h, hnone => by
    have hx : x = none := by
      have h0 := hnone 0 (Nat.succ_pos j)
      rwa [List.getD_cons_zero] at h0
    rw [List.getD_cons_succ] at h
    rw [hx]
    show firstSome rest = some v
    exact firstSome_exact h (fun k hk => by
      have hk1 := hnone (k + 1) (by omega)
      rwa [List.getD_cons_succ] at hk1)

theorem lastSome_eq_none :
    ∀ {s : List (Option ℚ)}, (∀ k, k < s.length → s.getD k none = none) →
      lastSome s = none
  | [], _ => rfl
  | x :: rest, h => by
    have hx : x = none := by
      have h0 := h 0 (by simp)
      rwa [List.getD_cons_zero] at h0
    have hr : lastSome rest = none := lastSome_eq_none (fun k hk => by
      have hk1 := h (k + 1) (by simp only [List.length_cons]; omega)
      rwa [List.getD_cons_succ] at hk1)
    rw [lastSome, hr, hx]

theorem lastSome_exact :
    ∀ {s : List (Option ℚ)} {p : ℕ} {v : ℚ}, s.getD p none = some v →
      (∀ k, p < k → k < s.length → s.getD k none = none) → lastSome s = some v
  | [], _, _, h, _ => by simp at h
  | x :: rest, 0, v, h, hnone => by
    rw [List.getD_cons_zero] at h
    have hr : lastSome rest = none := lastSome_eq_none (fun k hk => by
      have hk1 := hnone (k + 1) (Nat.succ_pos k) (by simp only [List.length_cons]; omega)
      rwa [List.getD_cons_succ] at hk1)
    rw [lastSome, hr, h]
  | x :: rest, p + 1, v, h, hnone => by
    rw [List.getD_cons_succ] at h
    have hr : lastSome rest = some v := lastSome_exact h (fun k hk1 hk2 => by
      have hk3 := hnone (k + 1) (by omega) (by simp only [List.length_cons]; omega)
      rwa [List.getD_cons_succ] at hk3)
    rw [lastSome, hr]

/-- C4: a country series that is missing at its first (resp. last) row but
has at least one known value is filled at that boundary with the nearest
known value in row order: the earliest known value for a leading gap, the
latest known value for a trailing gap. -/
theorem c4_boundary_fill (s : List (Option ℚ)) (hk : ∃ v, some v ∈ s) :
    (s.head? = some none → (cleanSeries s).head? = some (firstSome s)) ∧
    (s.getLast? = some none → (cleanSeries s).getLast? = some (lastSome s)) := by
  obtain ⟨v0, hv0⟩ := hk
  obtain ⟨j0, hj0⟩ := List.mem_iff_getElem?.mp hv0
  have hj0len : j0 < s.length := (List.getElem?_eq_some.mp hj0).1
  have hsj0 : s.getD j0 none = some v0 := by rw [List.getD_eq_getElem?_getD, hj0]; rfl
  have hlen0 : 0 < s.length := Nat.lt_of_le_of_lt (Nat.zero_le j0) hj0len
  have htlen : (interpolate s).length = s.length := length_interpolate s
  have hulen : (ffill (interpolate s)).length = s.length := by rw [length_ffill, htlen]
  have holen : (cleanSeries s).length = s.length := length_cleanSeries s
  constructor
  · intro hhead
    have hs0 : s.getD 0 none = none := by
      rw [List.head?_eq_getElem?] at hhead
      rw [List.getD_eq_getElem?_getD, hhead]; rfl
    have hex : ∃ k, (s.getD k none).isSome := ⟨j0, by rw [hsj0]; rfl⟩
    obtain ⟨j, hvj', hjlt⟩ :
        ∃ j, (∃ v, s.getD j none = some v) ∧ ∀ k, k < j → s.getD k none = none := by
      refine ⟨Nat.find hex, Option.isSome_iff_exists.mp (Nat.find_spec hex), ?_⟩
      intro k hk'
      exact Option.not_isSome_iff_eq_none.mp (Nat.find_min hex hk')
    obtain ⟨vj, hvj⟩ := hvj'
    have hjlen : j < s.length := by
      by_contra hge
      push_neg at hge
      rw [List.getD_eq_getElem?_getD, List.getElem?_eq_none hge] at hvj
      exact absurd hvj (by simp)
    have hj0pos : 0 < j := by
      rcases Nat.eq_zero_or_pos j with hz | hp2
      · rw [hz, hs0] at hvj; exact absurd hvj (by simp)
      · exact hp2
    have ht_none : ∀ k, k < j → (interpolate s).getD k none = none := by
      intro k hk'
      rw [getD_interpolate s k (Nat.lt_trans hk' hjlen)]
      unfold interpValue
      rw [hjlt k hk', lastKnownBefore_eq_none (fun m hm => hjlt m (Nat.lt_trans hm hk'))]
    have ht_j : (interpolate s).getD j none = some vj := by
      rw [getD_interpolate s j hjlen]; exact interpValue_known hvj
    have hu_none : ∀ k, k < j → (ffill (interpolate s)).getD k none = none := by
      intro k hk'
      rw [getD_ffill _ k (by rw [htlen]; exact Nat.lt_trans hk' hjlen)]
      unfold ffillValue
      rw [ht_none k hk', lastKnownBefore_eq_none (fun m hm => ht_none m (Nat.lt_trans hm hk'))]
      rfl
    have hu_j : (ffill (interpolate s)).getD j none = some vj := by
      rw [getD_ffill _ j (by rw [htlen]; exact hjlen)]; exact ffillValue_known ht_j
    have hout0 : (cleanSeries s).getD 0 none = some vj := by
      rw [cleanSeries, getD_bfill _ 0 (by rw [hulen]; exact hlen0)]
      unfold bfillValue
      rw [hu_none 0 hj0pos]
      rw [firstKnownFrom_exact hu_j (by rw [hulen]; exact hjlen) _
        (Nat.zero_le j) (by rw [hulen]; omega) (fun k _ hk2 => hu_none k hk2)]
      rfl
    have hfs : firstSome s = some vj := firstSome_exact hvj hjlt
    have hlt : 0 < (cleanSeries s).length := by rw [holen]; exact hlen0
    have hcell : (cleanSeries s)[0]? = some (some vj) := by
      rw [List.getElem?_eq_getElem hlt]
      have h2 := hout0
      rw [List.getD_eq_getElem?_getD, List.getElem?_eq_getElem hlt] at h2
      simpa using h2
    rw [List.head?_eq_getElem?, hfs]
    exact hcell
  · intro hlast
    have hslen1 : s.length - 1 < s.length := by omega
    have hslast : s.getD (s.length - 1) none = none := by
      rw [List.getLast?_eq_getElem?] at hlast
      rw [List.getD_eq_getElem?_getD, hlast]; rfl
    have hlkb : (lastKnownBefore s s.length).isSome := lastKnownBefore_isSome hj0len hsj0
    obtain ⟨⟨p, vp⟩, hp⟩ := Option.isSome_iff_exists.mp hlkb
    obtain ⟨hplt, hpval, hpnone⟩ := lastKnownBefore_spec hp
    have hpne : p < s.length - 1 := by
      rcases Nat.lt_or_ge p (s.length - 1) with h | h
      · exact h
      · have hpe : p = s.length - 1 := by omega
        rw [hpe, hslast] at hpval
        exact absurd hpval (by simp)
    have ht_last : (interpolate s).getD (s.length - 1) none = some vp := by
      rw [getD_interpolate s _ hslen1]
      unfold interpValue
      rw [hslast]
      rw [lastKnownBefore_exact hpval hpne (fun k hk1 hk2 => hpnone k hk1 (by omega))]
      rw [firstKnownFrom_none_of_ge _ (by omega)]
    have hu_last : (ffill (interpolate s)).getD (s.length - 1) none = some vp := by
      rw [getD_ffill _ _ (by rw [htlen]; exact hslen1)]
      exact ffillValue_known ht_last
    have hout_last : (cleanSeries s).getD (s.length - 1) none = some vp := by
      rw [cleanSeries, getD_bfill _ _ (by rw [hulen]; exact hslen1)]
      exact bfillValue_known hu_last
    have hls : lastSome s = some vp := lastSome_exact hpval hpnone
    have hlt2 : s.length - 1 < (cleanSeries s).length := by rw [holen]; exact hslen1
    rw [List.getLast?_eq_getElem?, holen, hls]
    rw [List.getElem?_eq_getElem hlt2]
    have h2 := hout_last
    rw [List.getD_eq_getElem?_getD, List.getElem?_eq_getElem hlt2] at h2
    simpa using h2

/-- Witness for C4 at a concrete input: the series (missing, 7, missing) is
filled to (7, 7, 7) at both boundaries. -/
theorem c4_boundary_fill_witness :
    (cleanSeries [none, some 7, none]).head? = some (firstSome [none, some 7, none]) ∧
    (cleanSeries [none, some 7, none]).getLast? = some (lastSome [none, some 7, none]) := by
  have h := c4_boundary_fill [none, some 7, none] ⟨7, by decide⟩
  exact ⟨h.1 rfl, h.2 rfl⟩

/-! C3 machinery: the grouping partitions the sorted list, and the cleaning
transform changes no identifying field and no row position. -/

theorem flatten_groupsGo :
    ∀ (c : String) (cur l : List Row), (groupsGo c cur l).flatten = cur.reverse ++ l
  | _, cur, [] => by simp [groupsGo]
  | c, cur, x :: xs => by
    rw [groupsGo]
    split
    · rw [flatten_groupsGo c (x :: cur) xs]
      simp
    · rw [List.flatten_cons, flatten_groupsGo x.country [x] xs]
      simp

theorem flatten_groups (l : List Row) : (groups l).flatten = l := by
  cases l with
  | nil => rfl
  | cons r rs => rw [groups, flatten_groupsGo]; simp

theorem map_rowKey_cleanGroup (g : List Row) :
    (cleanGroup g).map rowKey = g.map rowKey := by
  apply List.ext_getElem
  · simp [cleanGroup, List.length_zipWith]
  · intro i h1 h2
    simp [cleanGroup, List.getElem_zipWith, rowKey]

theorem map_rowKey_load_data (rows : List Row) :
    (load_data rows).map rowKey = (sortRows (rows.filter keep)).map rowKey := by
  rw [load_data, List.map_flatten, List.map_map]
  have h1 : List.map rowKey ∘ cleanGroup = List.map rowKey := by
    funext g
    exact map_rowKey_cleanGroup g
  rw [h1, ← List.map_flatten, flatten_groups]

/-- C3: the cleaned table consists exactly of the input rows whose iso_code
has exactly 3 characters — as a multiset of (iso_code, country, year) keyed
rows nothing else is added or dropped — every row of the result has a
3-character iso_code, and the result is sorted by (country, year)
ascending. -/
theorem c3_filter_sort (rows : List Row) :
    ((load_data rows).map rowKey).Perm ((rows.filter keep).map rowKey) ∧
    (∀ r ∈ load_data rows, r.iso_code.length = 3) ∧
    (load_data rows).Pairwise keyLE := by
  refine ⟨?_, ?_, ?_⟩
  · rw [map_rowKey_load_data]
    exact (List.perm_insertionSort keyLE _).map rowKey
  · intro r hr
    have hk : rowKey r ∈ (load_data rows).map rowKey := List.mem_map_of_mem rowKey hr
    rw [map_rowKey_load_data] at hk
    have hk2 : rowKey r ∈ (rows.filter keep).map rowKey :=
      ((List.perm_insertionSort keyLE _).map rowKey).mem_iff.mp hk
    obtain ⟨x, hx, hxkey⟩ := List.mem_map.mp hk2
    have hiso : x.iso_code = r.iso_code := congrArg (fun p => p.1) hxkey
    have hkeep := (List.mem_filter.mp hx).2
    simp only [keep, beq_iff_eq] at hkeep
    rw [← hiso]
    exact hkeep
  · have hs : (sortRows (rows.filter keep)).Pairwise keyLE :=
      List.sorted_insertionSort keyLE _
    have hs2 : ((sortRows (rows.filter keep)).map rowKey).Pairwise rowKeyLE :=
      List.pairwise_map.mpr hs
    have h3 : ((load_data rows).map rowKey).Pairwise rowKeyLE := by
      rw [map_rowKey_load_data]
      exact hs2
    have h4 : (load_data rows).Pairwise (fun a b => rowKeyLE (rowKey a) (rowKey b)) :=
      List.pairwise_map.mp h3
    exact h4

/-- C5: for every year, the bar-race block of that year has at most 10
entries and consists exactly of the largest per-year totals: it is a
sub-multiset of the annual totals, everything left out is no larger than
anything kept, and when at most 10 countries exist that year it is all of
them. -/
theorem c5_top10 (rows : List Row) (y : ℤ) :
    (top10_each rows y).length ≤ 10 ∧
    ((annual rows y).length ≤ 10 → (top10_each rows y).Perm (annual rows y)) ∧
    ∃ rest, (annual rows y).Perm (top10_each rows y ++ rest) ∧
      ∀ x ∈ top10_each rows y, ∀ z ∈ rest, z.2 ≤ x.2 := by
  have hperm : (List.insertionSort geCo2 (annual rows y)).Perm (annual rows y) :=
    List.perm_insertionSort geCo2 _
  have hsort : (List.insertionSort geCo2 (annual rows y)).Pairwise geCo2 :=
    List.sorted_insertionSort geCo2 _
  refine ⟨?_, ?_, ?_⟩
  · rw [top10_each, List.length_take]
    exact min_le_left _ _
  · intro hle
    rw [top10_each, List.take_of_length_le (by rw [hperm.length_eq]; exact hle)]
    exact hperm
  · refine ⟨(List.insertionSort geCo2 (annual rows y)).drop 10, ?_, ?_⟩
    · rw [top10_each, List.take_append_drop]
      exact hperm.symm
    · intro x hx z hz
      have h2 := hsort
      rw [← List.take_append_drop 10 (List.insertionSort geCo2 (annual rows y)),
        List.pairwise_append] at h2
      exact h2.2.2 x (by rwa [top10_each] at hx) z hz

/-- Witness for C5 at a concrete input: with a single country the block is
the whole annual table. -/
theorem c5_top10_witness : (top10_each [rowA] 2000).Perm (annual [rowA] 2000) :=
  (c5_top10 [rowA] 2000).2.1 (by decide)

/-- Every member of a column is bounded by the pandas column maximum. -/
theorem le_maxQ : ∀ (l : List ℚ) (x : ℚ), x ∈ l → x ≤ maxQ l
  | [], x, h => absurd h (List.not_mem_nil x)
  | [y], x, h => by
    rw [List.mem_singleton] at h
    rw [h, maxQ]
  | y :: z :: rest, x, h => by
    rw [maxQ]
    rcases List.mem_cons.mp h with hxy | hmem
    · rw [hxy]
      exact le_max_left _ _
    · exact le_trans (le_maxQ (z :: rest) x hmem) (le_max_right _ _)

/-- C6: each selected country contributes to `df_norm` its metric values
divided by the per-metric maxima taken over ALL rows of the latest-year
table, and under non-negative inputs with a positive maximum each normalized
value lies in [0, 1]. -/
theorem c6_radar_normalized (rows : List Row) (choices : List String) (r : Row)
    (hr : r ∈ selectedRows rows choices) (m : Metric)
    (hnonneg : ∀ r' ∈ dfRadar rows, 0 ≤ metricVal m r')
    (hpos : 0 < metricMax rows m) :
    (r.country, fun m' => metricVal m' r / metricMax rows m') ∈ df_norm rows choices ∧
    0 ≤ metricVal m r / metricMax rows m ∧ metricVal m r / metricMax rows m ≤ 1 := by
  obtain ⟨c, _hc, hfind⟩ := List.mem_filterMap.mp hr
  have hrdf : r ∈ dfRadar rows := List.mem_of_find?_eq_some hfind
  have h0 : 0 ≤ metricVal m r := hnonneg r hrdf
  have hle : metricVal m r ≤ metricMax rows m :=
    le_maxQ _ _ (List.mem_map_of_mem (metricVal m) hrdf)
  refine ⟨List.mem_map_of_mem _ hr, ?_, ?_⟩
  · exact div_nonneg h0 (le_of_lt hpos)
  · exact div_le_one_of_le₀ hle (le_of_lt hpos)

/-- Latest-year row with all four radar inputs present, used as concrete
input below. -/
def rowB : Row :=
  { iso_code := "BBB", country := "B", year := 2000,
    val := fun c => match c with
      | Col.co2 => some 3
      | Col.co2_per_capita => some 1
      | Col.gdp => some 6
      | Col.population => some 2
      | _ => none }

/-- Witness for C6 at a concrete input. -/
theorem c6_radar_normalized_witness :
    (rowB.country, fun m' => metricVal m' rowB / metricMax [rowB] m') ∈ df_norm [rowB] ["B"] ∧
    0 ≤ metricVal Metric.co2 rowB / metricMax [rowB] Metric.co2 ∧
    metricVal Metric.co2 rowB / metricMax [rowB] Metric.co2 ≤ 1 :=
  c6_radar_normalized [rowB] ["B"] rowB (by decide) Metric.co2 (by decide) (by decide)

/-- C7: every row of the bubble-map table gets bubble_size =
(co2 / max co2) * 60 + 5, which lies in [5, 65] whenever the co2 cell is
between 0 and the column maximum. -/
theorem c7_bubble_size (rows : List Row) (r : Row) (_hr : r ∈ dfMap rows)
    (h0 : 0 ≤ co2val r) (h1 : co2val r ≤ dfMapCo2Max rows) :
    bubble_size rows r = (co2val r / dfMapCo2Max rows) * 60 + 5 ∧
    5 ≤ bubble_size rows r ∧ bubble_size rows r ≤ 65 := by
  have hM : 0 ≤ dfMapCo2Max rows := le_trans h0 h1
  have hdiv0 : 0 ≤ co2val r / dfMapCo2Max rows := div_nonneg h0 hM
  have hdiv1 : co2val r / dfMapCo2Max rows ≤ 1 := by
    rcases lt_or_eq_of_le hM with hpos | heq
    · exact div_le_one_of_le₀ h1 (le_of_lt hpos)
    · have hc : co2val r = 0 := by
        apply le_antisymm _ h0
        rw [← heq] at h1
        exact h1
      rw [hc, ← heq]
      norm_num
  refine ⟨rfl, ?_, ?_⟩
  · rw [bubble_size]
    nlinarith
  · rw [bubble_size]
    nlinarith

/-- Witness for C7 at a concrete input. -/
theorem c7_bubble_size_witness :
    bubble_size [rowB] rowB = (co2val rowB / dfMapCo2Max [rowB]) * 60 + 5 ∧
    5 ≤ bubble_size [rowB] rowB ∧ bubble_size [rowB] rowB ≤ 65 :=
  c7_bubble_size [rowB] rowB (by decide) (by decide) (by decide)

/-- C8: the radar panel draws a chart exactly when the selection is
nonempty; an empty selection yields the informational message and no
chart. -/
theorem c8_radar_empty_selection (rows : List Row) (choices : List String) :
    (radarPanel rows choices
        = RadarOutput.message "Select at least one country to display the radar chart."
      ↔ choices = []) ∧
    ((∃ d, radarPanel rows choices = RadarOutput.chart d) ↔ choices ≠ []) := by
  by_cases h : choices = []
  · subst h
    simp [radarPanel]
  · simp [radarPanel, h]

/-! C9 machinery: heap reads and writes of the panels. -/

theorem get_bubblePanelRun (h : Heap) (df : ℕ) (hdf : df < h.tables.length) :
    (bubblePanelRun h df).get df = h.get df := by
  simp only [bubblePanelRun, Heap.alloc, Heap.put, Heap.get]
  rw [List.getD_eq_getElem?_getD, List.getElem?_set_ne (by omega),
    List.getElem?_append, if_pos hdf, ← List.getD_eq_getElem?_getD]

theorem tables_length_bubblePanelRun (h : Heap) (df : ℕ) :
    h.tables.length ≤ (bubblePanelRun h df).tables.length := by
  simp [bubblePanelRun, Heap.alloc, Heap.put, List.length_set]

theorem get_radarPanelRun (h : Heap) (df : ℕ) (hdf : df < h.tables.length) :
    (radarPanelRun h df).get df = h.get df := by
  simp only [radarPanelRun, Heap.alloc, Heap.put, Heap.get]
  rw [List.getD_eq_getElem?_getD, List.getElem?_set_ne (by omega),
    List.getElem?_append, if_pos hdf, ← List.getD_eq_getElem?_getD]

theorem tables_length_radarPanelRun (h : Heap) (df : ℕ) :
    h.tables.length ≤ (radarPanelRun h df).tables.length := by
  simp [radarPanelRun, Heap.alloc, Heap.put, List.length_set]

theorem get_renderPass (h : Heap) (df : ℕ) (hdf : df < h.tables.length)
    (b1 b2 b3 b4 : Bool) :
    (renderPass h df b1 b2 b3 b4).get df = h.get df := by
  rw [renderPass]
  have e1 : (if b1 then barPanelRun h df else h) = h := by cases b1 <;> rfl
  rw [e1]
  have e4 : ∀ hh : Heap, (if b4 then sunburstPanelRun hh df else hh) = hh := by
    intro hh
    cases b4 <;> rfl
  rw [e4]
  cases b2 <;> cases b3 <;> simp only [Bool.false_eq_true, if_true, if_false, ite_true, ite_false]
  · exact get_radarPanelRun h df hdf
  · exact get_bubblePanelRun h df hdf
  · rw [get_radarPanelRun _ df (Nat.lt_of_lt_of_le hdf (tables_length_bubblePanelRun h df))]
    exact get_bubblePanelRun h df hdf

/-- C9: a render pass over any subset of the four panels leaves the cached
cleaned table untouched: after the pass, dereferencing it still yields
exactly the rows `load_data` produced — the bubble-size and
gdp-per-capita columns were added to freshly allocated copies only. -/
theorem c9_render_read_only (raw : List Row) (bar bubble radar sunburst : Bool) :
    (renderPass (initialHeap raw) 0 bar bubble radar sunburst).get 0
      = (load_data raw).map (fun r => ⟨r, []⟩) := by
  rw [get_renderPass (initialHeap raw) 0 (by simp [initialHeap]) bar bubble radar sunburst]
  rfl

/-- Latest-year row passing the radar dropna with population equal to 0,
used as concrete input below. -/
def rowC : Row :=
  { iso_code := "CCC", country := "C", year := 2000,
    val := fun c => match c with
      | Col.co2 => some 1
      | Col.co2_per_capita => some 1
      | Col.gdp => some 5
      | Col.population => some 0
      | _ => none }

/-- C10: the radar derivation gdp / population carries no guard against a
zero population: the guarded division succeeds exactly when population is
nonzero, and a cleaned table can feed the radar panel a latest-year row with
all four inputs present and population = 0, on which the guarded division
takes its error branch. -/
theorem c10_population_zero_division :
    (∀ r : Row, (gdpPerCapitaChecked r).isSome ↔ (r.val Col.population).getD 0 ≠ 0) ∧
    (∃ r ∈ dfRadar (load_data [rowC]), r.val Col.population = some 0 ∧
      gdpPerCapitaChecked r = none) := by
  constructor
  · intro r
    unfold gdpPerCapitaChecked
    split_ifs with h
    · simp [h]
    · simp [h]
  · decide
